import Mathlib

/-!
Verification of the Game-of-Life core of the clean-arch-kata repository.

The definitions below are shallow embeddings of the TypeScript source:
`src/life/domain.ts` (cell states, boards, the two advance strategies,
the big-integer canonical encoding, the simulation driver helpers),
`src/life/domain/store_board.ts` (the store-backed board and the rule
built from parsed birth/survive sets), and the generic parser
combinators (`src/parse`).  JavaScript `number` coordinates are
modelled as integers, the living-neighbor count as a natural number,
JavaScript array indexing (which yields `undefined` out of range) as
`Option`, and `bigint` as `Nat`.
-/

set_option maxHeartbeats 1000000

namespace LifeKata

/-- Cell status, from `enum CellState` in `src/life/domain.ts`. -/
inductive CellState where
  | Living
  | Dead
  deriving DecidableEq, Repr

/-- A 2-D integer coordinate, from `Point` in `src/cartesian/domain.ts`. -/
structure Point where
  x : ℤ
  y : ℤ
  deriving DecidableEq, Repr

/-- Vector addition of points (`addPoint`). -/
def addPoint (p1 p2 : Point) : Point := ⟨p1.x + p2.x, p1.y + p2.y⟩

/-- A board assigns a cell state to every point of the plane (`type Board`). -/
abbrev Board := Point → CellState

/-- `constantBoard`: the board with a constant value at all coordinates. -/
def constantBoard (c : CellState) : Board := fun _ => c

/-- `emptyBoard`: the board with only dead cells. -/
def emptyBoard : Board := constantBoard CellState.Dead

/-- `birth b p`: the board that is like `b` except Living at `p`. -/
def birth (b : Board) (p : Point) : Board :=
  fun p2 => if p = p2 then CellState.Living else b p2

/-- `boardFromPoints`: fold `birth` over `emptyBoard` (fp-ts `reduce` is a left fold). -/
def boardFromPoints (points : List Point) : Board :=
  points.foldl birth emptyBoard

/-- The eight neighbor directions (`enum Direction`). -/
inductive Direction where
  | North | Northeast | East | Southeast | South | Southwest | West | Northwest
  deriving DecidableEq, Repr

/-- `allDirections`, in source order. -/
def allDirections : List Direction :=
  [.North, .Northeast, .East, .Southeast, .South, .Southwest, .West, .Northwest]

/-- The unit offset matched on in `move`. -/
def directionOffset : Direction → Point
  | .North => ⟨0, -1⟩
  | .Northeast => ⟨1, -1⟩
  | .East => ⟨1, 0⟩
  | .Southeast => ⟨1, 1⟩
  | .South => ⟨0, 1⟩
  | .Southwest => ⟨-1, 1⟩
  | .West => ⟨-1, 0⟩
  | .Northwest => ⟨-1, -1⟩

/-- `move d p`: the point one cell in direction `d` from `p`. -/
def move (d : Direction) (p : Point) : Point := addPoint p (directionOffset d)

/-- `enum CellDifference`. -/
inductive CellDifference where
  | Birth
  | Death
  | NoChange
  deriving DecidableEq, Repr

/-- `updateCell`: apply an optional difference to a state.  A present
difference other than `Birth` (including `NoChange`) yields `Dead`,
exactly as the source's nested conditional does. -/
def updateCell (state : CellState) (change : Option CellDifference) : CellState :=
  match change with
  | none => state
  | some c => if c = CellDifference.Birth then CellState.Living else CellState.Dead

/-- `subtractState`: the difference between two cell states. -/
def subtractState (a b : CellState) : CellDifference :=
  match a, b with
  | CellState.Dead, CellState.Living => CellDifference.Death
  | CellState.Living, CellState.Dead => CellDifference.Birth
  | _, _ => CellDifference.NoChange

/-- `subtractBoard`: pointwise difference of two boards. -/
def subtractBoard (a b : Board) : Point → CellDifference :=
  fun p => subtractState (a p) (b p)

/-- `type StateChangeRule`: optional difference from state and living-neighbor count. -/
abbrev StateChangeRule := CellState → ℕ → Option CellDifference

/-- `recursiveAdvance`: the pure strategy; every queried point re-evaluates
the input board at the eight neighbors. -/
def recursiveAdvance (rule : StateChangeRule) (board : Board) : Board :=
  fun p =>
    let neighbors := allDirections.map (fun d => move d p)
    let living := neighbors.filter (fun q => decide (board q = CellState.Living))
    updateCell (board p) (rule (board p) living.length)

/-- JavaScript array indexing: a negative, fractional or out-of-range
index yields `undefined`, modelled as `none`. -/
def jsIndex {α : Type} (l : List α) (i : ℤ) : Option α :=
  if 0 ≤ i then l.get? i.toNat else none

/-- effect's `Array.range(0, n - 1)`: inclusive on both ends and never
empty (`range(0, -1)` is `[0]`), so `[0, …, n-1]` for `n ≥ 1` and `[0]`
for `n = 0`. -/
def effRange (n : ℕ) : List ℕ := List.range (max n 1)

/-- `newStoreBoard`: materialize `state` on the `width × height` window
into nested arrays; reads fall back to `Dead` (`b[p.x]?.[p.y] ?? Dead`). -/
def newStoreBoard (width height : ℕ) (state : Board) : Board :=
  let b := (effRange width).map
    (fun (x : ℕ) => (effRange height).map (fun (y : ℕ) => state ⟨x, y⟩))
  fun p => ((jsIndex b p.x).bind (fun col => jsIndex col p.y)).getD CellState.Dead

/-- `advanceWithStorage`: the materialized (array) strategy. -/
def advanceWithStorage (width height : ℕ) (rule : StateChangeRule) (board : Board) : Board :=
  newStoreBoard width height (recursiveAdvance rule board)

/-- The value of a bit string read in binary, i.e. `BigInt("0b" + bits)`. -/
def bitsToNat (bs : List Bool) : ℕ :=
  bs.foldl (fun acc b => 2 * acc + (if b then 1 else 0)) 0

/-- `boardToBigNum`: serialize the `width × height` window of a board to
an unsigned integer, one bit per cell, `x` outer and `y` inner, Living = 1. -/
def boardToBigNum (width height : ℕ) (b : Board) : ℕ :=
  bitsToNat ((effRange width).flatMap
    (fun (x : ℕ) => (effRange height).map
      (fun (y : ℕ) => decide (b ⟨x, y⟩ = CellState.Living))))

/-- The routing used when a board difference is applied back to a cell:
`Birth`/`Death` are passed through as a present option, `NoChange`
is represented as the absent option. -/
def optionOfDifference (d : CellDifference) : Option CellDifference :=
  if d = CellDifference.NoChange then none else some d

/-- The store-backed board record of `src/life/domain/store_board.ts`. -/
structure StoreBoard (α : Type) where
  width : ℕ
  height : ℕ
  cells : List α

/-- JavaScript `%`: the remainder of division truncated toward zero. -/
def jsMod (a b : ℤ) : ℤ := Int.tmod a b

/-- `getStore`'s `peek`: `cells[y * width + (x % (width * height))]`.
The read is out of the typed range for many points, which JavaScript
answers with `undefined`, modelled as `none`. -/
def getStorePeek {α : Type} (b : StoreBoard α) (p : Point) : Option α :=
  jsIndex b.cells (p.y * b.width + jsMod p.x (b.width * b.height))

/-- `partsToRule`: the state-change rule built from the parsed birth and
survive sets (`store_board.ts`). -/
def partsToRule (birthSet surviveSet : List ℕ) : StateChangeRule :=
  fun state numLivingNeighbors =>
    if state = CellState.Living ∧ numLivingNeighbors ∉ surviveSet then
      some CellDifference.Death
    else if state = CellState.Dead ∧ numLivingNeighbors ∈ birthSet then
      some CellDifference.Birth
    else none

/-- A parser is a function from the remaining input to an optional
(result, leftover) pair (`src/parse/parser.ts`). -/
structure Parser (α : Type) where
  run : List Char → Option (α × List Char)

/-- `str`: match exactly the given string. -/
def str (target : List Char) : Parser (List Char) :=
  ⟨fun candidate =>
    if target.isPrefixOf candidate then some (target, candidate.drop target.length)
    else none⟩

/-- The loop inside `oneOf`: first success wins. -/
def oneOfRun {α : Type} : List (Parser α) → List Char → Option (α × List Char)
  | [], _ => none
  | p :: ps, candidate =>
    match p.run candidate with
    | some r => some r
    | none => oneOfRun ps candidate

/-- `oneOf`: left-biased alternation. -/
def oneOf {α : Type} (options : List (Parser α)) : Parser α :=
  ⟨fun candidate => oneOfRun options candidate⟩

/-- The recursion inside `zeroOrMore`.  The source recurses on the
leftover input; it terminates because the element parser consumes at
least one character whenever it succeeds, so fuel `length + 1` is never
exhausted in that case (running out of fuel models the divergence a
non-consuming element parser would cause). -/
def zeroOrMoreRun {α : Type} (p : Parser α) : ℕ → List Char → Option (List α × List Char)
  | 0, _ => none
  | fuel + 1, candidate =>
    match p.run candidate with
    | none => some ([], candidate)
    | some (a, rest) =>
      match zeroOrMoreRun p fuel rest with
      | some (as, remaining) => some (a :: as, remaining)
      | none => none

/-- `zeroOrMore`: match `p` as many times as possible. -/
def zeroOrMore {α : Type} (p : Parser α) : Parser (List α) :=
  ⟨fun candidate => zeroOrMoreRun p (candidate.length + 1) candidate⟩

/-- `sequenceRight left right`: run both, keep the right result. -/
def sequenceRight {α β : Type} (left : Parser α) (right : Parser β) : Parser β :=
  ⟨fun s =>
    match left.run s with
    | some (_, remaining) => right.run remaining
    | none => none⟩

/-- `parserFunctor.map`. -/
def parserMap {α β : Type} (p : Parser α) (f : α → β) : Parser β :=
  ⟨fun s =>
    match p.run s with
    | some (a, remaining) => some (f a, remaining)
    | none => none⟩

/-- `parserAp.of`. -/
def parserOf {α : Type} (a : α) : Parser α := ⟨fun s => some (a, s)⟩

/-- `parserAp.ap`. -/
def parserAp {α β : Type} (fab : Parser (α → β)) (fa : Parser α) : Parser β :=
  ⟨fun s =>
    match fab.run s with
    | some (f, remaining) =>
      match fa.run remaining with
      | some (a, remaining2) => some (f a, remaining2)
      | none => none
    | none => none⟩

/-- `parse`: run a parser, turning a failed run or leftover input into a
structured error value (fp-ts `Either` modelled as `Except`; the exact
text of the leftover-input message is immaterial here). -/
def parse {α : Type} (p : Parser α) (s : List Char) : Except String α :=
  match p.run s with
  | none => Except.error "input not matched"
  | some (result, remaining) =>
    if remaining = [] then Except.ok result
    else Except.error ("some content unmatched: " ++ String.mk remaining)

/-- The digit characters of the rule grammar. -/
def digitChars : List Char := ['0', '1', '2', '3', '4', '5', '6', '7', '8']

/-- JavaScript `parseInt`, as it behaves on the digit strings it is
applied to in the rule parser. -/
def parseIntChars (s : List Char) : ℕ :=
  s.foldl (fun acc c => 10 * acc + (c.toNat - 48)) 0

/-- The nine single-digit parsers (`["0", …, "8"].map(str).map(map parseInt)`). -/
def digits : List (Parser ℕ) :=
  (digitChars.map (fun c => str [c])).map (fun p => parserMap p parseIntChars)

/-- `anyDigit`. -/
def anyDigit : Parser ℕ := oneOf digits

/-- `someDigits`. -/
def someDigits : Parser (List ℕ) := zeroOrMore anyDigit

/-- `prule`. -/
def prule : Parser (List ℕ → List ℕ → StateChangeRule) := parserOf partsToRule

/-- `pb = pipe(someDigits, sequenceRight(str("B")))`: parse `"B"`, then
digits, keeping the digits. -/
def pb : Parser (List ℕ) := sequenceRight (str ['B']) someDigits

/-- `ps = pipe(someDigits, sequenceRight(str("/S")))`: parse `"/S"`,
then digits, keeping the digits. -/
def ps : Parser (List ℕ) := sequenceRight (str ['/', 'S']) someDigits

/-- `ruleParser = parserAp.ap(parserAp.ap(prule, pb), ps)`. -/
def ruleParser : Parser StateChangeRule := parserAp (parserAp prule pb) ps

/-- A digit of the rule grammar, `"0" .. "8"`. -/
def isRuleDigit (c : Char) : Bool := decide (c ∈ digitChars)

/-- The language of the spec's stated EBNF
`Rule ::= Digit* "B" Digit* "/S"`, written from the spec's words for
comparison with the parser's actual behavior. -/
def specGrammar (s : List Char) : Prop :=
  ∃ ds1 ds2 : List Char,
    (∀ c ∈ ds1, isRuleDigit c) ∧ (∀ c ∈ ds2, isRuleDigit c) ∧
    s = ds1 ++ 'B' :: (ds2 ++ ['/', 'S'])

/-- The language the code's `ruleParser` accepts:
`Rule ::= "B" Digit* "/S" Digit*`. -/
def codeGrammar (s : List Char) : Prop :=
  ∃ ds1 ds2 : List Char,
    (∀ c ∈ ds1, isRuleDigit c) ∧ (∀ c ∈ ds2, isRuleDigit c) ∧
    s = 'B' :: (ds1 ++ '/' :: 'S' :: ds2)

/-- A value tagged with its generation counter (`Iterated` in
`src/iterated.ts`). -/
structure Iterated (α : Type) where
  iteration : ℕ
  value : α

/-- The `Iterated` functor's `map` (also `liftIterated`): transform the
value and increment the counter. -/
def liftIterated {α β : Type} (f : α → β) (a : Iterated α) : Iterated β :=
  ⟨a.iteration + 1, f a.value⟩

/-- The simulation state (`Incomplete`, `Cycle`, `Limited`). -/
inductive Simulation (α : Type) where
  | incomplete (value : α)
  | cycle (value : α) (length : ℕ)
  | limited (value : α)

/-- The common `value` field of every simulation variant. -/
def simValue {α : Type} : Simulation α → α
  | .incomplete v => v
  | .cycle v _ => v
  | .limited v => v

/-- `checkMaxTurns` inside `checkCompletion`. -/
def checkMaxTurns (maxTurns : ℕ) (sim : Simulation (Iterated Board)) :
    Simulation (Iterated Board) :=
  if (simValue sim).iteration ≥ maxTurns then Simulation.limited (simValue sim) else sim

/-- The loop of JavaScript `Array.indexOf`, with `-1` modelled as `none`. -/
def jsIndexOfAux {α : Type} [DecidableEq α] : List α → α → ℕ → Option ℕ
  | [], _, _ => none
  | x :: xs, a, k => if x = a then some k else jsIndexOfAux xs a (k + 1)

/-- JavaScript `Array.indexOf`. -/
def jsIndexOf {α : Type} [DecidableEq α] (l : List α) (a : α) : Option ℕ :=
  jsIndexOfAux l a 0

/-- `checkCycling` inside `checkCompletion`: encode the board, look it
up among the recent encodings, and either record it (keeping the 100
most recent values) or emit a cycle of length index + 1. -/
def checkCycling (width height : ℕ) (recent : List ℕ)
    (sim : Simulation (Iterated Board)) : List ℕ × Simulation (Iterated Board) :=
  let n := boardToBigNum width height (simValue sim).value
  match jsIndexOf recent n with
  | none => ((n :: recent).take 100, sim)
  | some idx => (recent, Simulation.cycle (simValue sim) (idx + 1))

/-- `checkAll = checkCycling ∘ checkMaxTurns`, the accumulator step of
`checkCompletion`'s `Stream.mapAccum`. -/
def checkAll (maxTurns width height : ℕ) (recent : List ℕ)
    (sim : Simulation (Iterated Board)) : List ℕ × Simulation (Iterated Board) :=
  checkCycling width height recent (checkMaxTurns maxTurns sim)

/-- The terminal simulation states (`type Completion`). -/
inductive Completion (α : Type) where
  | cycle (value : α) (length : ℕ)
  | limited (value : α)

/-- `isComplete` as a partial projection: the completions are exactly
the simulation states the driver's `Stream.filter(isComplete)` keeps. -/
def toCompletion {α : Type} : Simulation α → Option (Completion α)
  | .cycle v l => some (Completion.cycle v l)
  | .limited v => some (Completion.limited v)
  | .incomplete _ => none

/-- The message `reportCompletion` logs, following the source's match
order: a cycle of length 0 first, then any cycle, then the turn limit. -/
def reportCompletion (result : Completion (Iterated Board)) : String :=
  match result with
  | Completion.cycle v l =>
    if l = 0 then "Board settled after " ++ toString v.iteration ++ " turns."
    else
      "Board entered cycle of length " ++ toString l ++ " after " ++
        toString v.iteration ++ " turns."
  | Completion.limited v =>
    "Game ended after max (" ++ toString v.iteration ++ ") turns without settling."

/-- The message `reportNoGenerations` logs. -/
def reportNoGenerations : String := "Completed without simulating anything."

/-- The search loop of the driver pipeline in the current `lifeImpl`:
the board stream starts at generation 0, `Stream.zipWithPrevious`
followed by dropping the `None` pairing means generation 1 is the first
state `checkCompletion` examines, and `Stream.filter(isComplete)` with
`Sink.head()` keeps the first terminal state.  `fuel` bounds how far the
lazy stream is pulled. -/
def firstCompletionAux (maxTurns width height : ℕ) (advance : Board → Board) :
    ℕ → List ℕ → Iterated Board → Option (Completion (Iterated Board))
  | 0, _, _ => none
  | fuel + 1, recent, cur =>
    match checkAll maxTurns width height recent (Simulation.incomplete cur) with
    | (recent2, sim2) =>
      match toCompletion sim2 with
      | some c => some c
      | none =>
        firstCompletionAux maxTurns width height advance fuel recent2 (liftIterated advance cur)

/-- The first completion the driver reports, starting from the
generation-0 board. -/
def firstCompletion (maxTurns width height : ℕ) (advance : Board → Board)
    (board : Board) (fuel : ℕ) : Option (Completion (Iterated Board)) :=
  firstCompletionAux maxTurns width height advance fuel [] (liftIterated advance ⟨0, board⟩)

/-- The Conway rule `B3/S23` in parsed form: `partsToRule([3])([2,3])`,
the value `parse(ruleParser, "B3/S23")` produces. -/
def conwayRule : StateChangeRule := partsToRule [3] [2, 3]

/-- The living cells of the 5-point glider (`patterns.glider`). -/
def gliderPoints : List Point := [⟨0, 1⟩, ⟨1, 2⟩, ⟨2, 0⟩, ⟨2, 1⟩, ⟨2, 2⟩]

/-- The board whose living cells are exactly the members of a list. -/
def listBoard (pts : List Point) : Board :=
  fun p => if p ∈ pts then CellState.Living else CellState.Dead

/-- The direction pointing back where one came from. -/
def oppositeDir : Direction → Direction
  | .North => .South
  | .Northeast => .Southwest
  | .East => .West
  | .Southeast => .Northwest
  | .South => .North
  | .Southwest => .Northeast
  | .West => .East
  | .Northwest => .Southeast

/-- Every cell that can possibly be alive after one advance of a board
whose living cells are `pts`: each living cell and its eight neighbors. -/
def stepCandidates (pts : List Point) : List Point :=
  (pts.flatMap (fun p => p :: allDirections.map (fun d => move d p))).dedup

/-- Whether a cell is alive after one recursive advance, under the
Conway rule, of the board with living set `pts`. -/
def nextAliveB (pts : List Point) (p : Point) : Bool :=
  decide (recursiveAdvance conwayRule (listBoard pts) p = CellState.Living)

/-- The living set after one recursive advance under the Conway rule. -/
def stepList (pts : List Point) : List Point :=
  (stepCandidates pts).filter (fun p => nextAliveB pts p)

/-- The generation counter carried by a completion. -/
def completionIteration : Completion (Iterated Board) → ℕ
  | Completion.cycle v _ => v.iteration
  | Completion.limited v => v.iteration

/-! Helper lemmas. -/

lemma foldl_birth_living (pts : List Point) (b0 : Board) (p : Point) :
    (pts.foldl birth b0) p = CellState.Living ↔ p ∈ pts ∨ b0 p = CellState.Living := by
  induction pts generalizing b0 with
  | nil => simp
  | cons q qs ih =>
    have hb : (birth b0 q) p = CellState.Living ↔ q = p ∨ b0 p = CellState.Living := by
      unfold birth; split <;> simp_all
    rw [List.foldl_cons, ih, hb, List.mem_cons]
    tauto

lemma boardFromPoints_living (pts : List Point) (p : Point) :
    boardFromPoints pts p = CellState.Living ↔ p ∈ pts := by
  unfold boardFromPoints
  rw [foldl_birth_living]
  simp [emptyBoard, constantBoard]

lemma boardFromPoints_eq_listBoard (pts : List Point) :
    boardFromPoints pts = listBoard pts := by
  funext p
  have h := boardFromPoints_living pts p
  unfold listBoard
  split
  · exact h.mpr (by assumption)
  · rcases h2 : boardFromPoints pts p with _ | _
    · exact absurd (h.mp h2) (by assumption)
    · rfl

lemma jsIndex_map {α β : Type} (f : α → β) (l : List α) (i : ℤ) :
    jsIndex (l.map f) i = (jsIndex l i).map f := by
  unfold jsIndex
  split <;> simp [List.get?_map]

lemma jsIndex_range (n : ℕ) (i : ℤ) (h0 : 0 ≤ i) (h1 : i < n) :
    jsIndex (List.range n) i = some i.toNat := by
  unfold jsIndex
  rw [if_pos h0]
  exact List.get?_range (by omega)

lemma effRange_of_pos (n : ℕ) (h : 1 ≤ n) : effRange n = List.range n := by
  unfold effRange
  congr 1
  omega

lemma newStoreBoard_inside (width height : ℕ) (state : Board) (p : Point)
    (hw : 1 ≤ width) (hh : 1 ≤ height) (hx0 : 0 ≤ p.x) (hx1 : p.x < width)
    (hy0 : 0 ≤ p.y) (hy1 : p.y < height) :
    newStoreBoard width height state p = state p := by
  unfold newStoreBoard
  rw [effRange_of_pos width hw, effRange_of_pos height hh]
  simp only [jsIndex_map, jsIndex_range _ _ hx0 hx1, Option.map_some', Option.some_bind]
  rw [jsIndex_range _ _ hy0 hy1]
  have hpx : ((p.x.toNat : ℕ) : ℤ) = p.x := Int.toNat_of_nonneg hx0
  have hpy : ((p.y.toNat : ℕ) : ℤ) = p.y := Int.toNat_of_nonneg hy0
  simp only [Option.map_some', Option.getD_some, hpx, hpy]

lemma jsIndex_range_none (n : ℕ) (i : ℤ) (h : i < 0 ∨ (n : ℤ) ≤ i) :
    jsIndex (List.range n) i = none := by
  unfold jsIndex
  rcases h with h | h
  · rw [if_neg (by omega)]
  · rw [if_pos (by omega)]
    apply List.get?_eq_none.mpr
    simp only [List.length_range]
    omega

lemma newStoreBoard_outside (width height : ℕ) (state : Board) (p : Point)
    (hw : 1 ≤ width) (hh : 1 ≤ height)
    (hout : p.x < 0 ∨ (width : ℤ) ≤ p.x ∨ p.y < 0 ∨ (height : ℤ) ≤ p.y) :
    newStoreBoard width height state p = CellState.Dead := by
  unfold newStoreBoard
  rw [effRange_of_pos width hw, effRange_of_pos height hh]
  by_cases hx : 0 ≤ p.x ∧ p.x < (width : ℤ)
  · obtain ⟨hx0, hx1⟩ := hx
    have hy : p.y < 0 ∨ (height : ℤ) ≤ p.y := by omega
    simp only [jsIndex_map, jsIndex_range _ _ hx0 hx1, Option.map_some', Option.some_bind]
    rw [jsIndex_range_none height p.y hy]
    rfl
  · have hx' : p.x < 0 ∨ (width : ℤ) ≤ p.x := by omega
    rw [jsIndex_map, jsIndex_range_none width p.x hx']
    rfl

/-! The claims. -/

/-- C10: differencing and update are mutually inverse at every cell:
`subtractState new old = NoChange` forces `new = old` and an absent
difference leaves the cell unchanged; a present `Birth`/`Death`
difference recovers the new state; routing board differences through
`optionOfDifference` (NoChange ↦ absent) recovers the minuend board
pointwise; and passing a present `NoChange` to `updateCell` collapses to
`Dead`, so the NoChange-as-none routing is required. -/
theorem subtract_update_inverse :
    (∀ nw old : CellState,
      subtractState nw old = CellDifference.NoChange → nw = old) ∧
    (∀ old : CellState, updateCell old none = old) ∧
    (∀ nw old : CellState, subtractState nw old ≠ CellDifference.NoChange →
      updateCell old (some (subtractState nw old)) = nw) ∧
    (∀ (a b : Board) (p : Point),
      updateCell (b p) (optionOfDifference (subtractBoard a b p)) = a p) ∧
    (∀ s : CellState,
      updateCell s (some CellDifference.NoChange) = CellState.Dead) := by
  refine ⟨?_, ?_, ?_, ?_, ?_⟩
  · intro nw old h
    cases nw <;> cases old <;> simp_all [subtractState]
  · intro old; rfl
  · intro nw old h
    cases nw <;> cases old <;> simp_all [subtractState, updateCell]
  · intro a b p
    cases h1 : a p <;> cases h2 : b p <;>
      simp [subtractBoard, subtractState, optionOfDifference, updateCell, h1, h2]
  · intro s; rfl

theorem subtract_update_inverse_witness :
    CellState.Living = CellState.Living ∧
    updateCell CellState.Dead (some CellDifference.Birth) = CellState.Living :=
  ⟨subtract_update_inverse.1 CellState.Living CellState.Living rfl,
   subtract_update_inverse.2.2.1 CellState.Living CellState.Dead (by decide)⟩

/-- C1: for every rule, board and window with width and height at least
1, the materialized strategy `advanceWithStorage` and the recursive
strategy `recursiveAdvance` return the same cell state at every point of
the window. -/
theorem strategies_agree_on_window (rule : StateChangeRule) (board : Board)
    (width height : ℕ) (hw : 1 ≤ width) (hh : 1 ≤ height) (p : Point)
    (hx0 : 0 ≤ p.x) (hx1 : p.x < width) (hy0 : 0 ≤ p.y) (hy1 : p.y < height) :
    advanceWithStorage width height rule board p = recursiveAdvance rule board p :=
  newStoreBoard_inside width height (recursiveAdvance rule board) p hw hh hx0 hx1 hy0 hy1

theorem strategies_agree_on_window_witness :
    advanceWithStorage 2 2 conwayRule (boardFromPoints gliderPoints) ⟨1, 1⟩
      = recursiveAdvance conwayRule (boardFromPoints gliderPoints) ⟨1, 1⟩ :=
  strategies_agree_on_window conwayRule (boardFromPoints gliderPoints) 2 2
    (by decide) (by decide) ⟨1, 1⟩ (by decide) (by decide) (by decide) (by decide)

/-- C5, counterexample: on a 1×1 window filled by a rule that keeps the
all-Living board alive, the materialized strategy reads `Dead` at the
out-of-window point (1, 0) even though the stored buffer's only cell —
the one modulo addressing would alias (1, 0) to — is `Living`.  So a
point outside the window does not wrap onto the buffer. -/
theorem array_outside_window_counterexample :
    advanceWithStorage 1 1 (partsToRule [] [8]) (constantBoard CellState.Living) ⟨1, 0⟩
        = CellState.Dead ∧
    advanceWithStorage 1 1 (partsToRule [] [8]) (constantBoard CellState.Living) ⟨0, 0⟩
        = CellState.Living := by
  constructor <;> decide

/-- C5, amended: for the materialized (array) advance strategy every
queried point outside the `width × height` rectangle reads as `Dead`
(`b[p.x]?.[p.y] ?? Dead`); the modulo addressing
`y * width + (x % (width * height))` lives only in the store-backed
board's `getStore.peek`, where it aliases the x coordinate modulo
`width * height` (for nonnegative x). -/
theorem outside_window_dead_and_store_aliases :
    (∀ (rule : StateChangeRule) (board : Board) (width height : ℕ) (p : Point),
      1 ≤ width → 1 ≤ height →
      (p.x < 0 ∨ (width : ℤ) ≤ p.x ∨ p.y < 0 ∨ (height : ℤ) ≤ p.y) →
      advanceWithStorage width height rule board p = CellState.Dead) ∧
    (∀ (α : Type) (b : StoreBoard α) (x y : ℤ), 0 ≤ x →
      getStorePeek b ⟨x + b.width * b.height, y⟩ = getStorePeek b ⟨x, y⟩) := by
  constructor
  · intro rule board width height p hw hh hout
    exact newStoreBoard_outside width height (recursiveAdvance rule board) p hw hh hout
  · intro α b x y hx
    unfold getStorePeek jsMod
    have hW : (0 : ℤ) ≤ (b.width : ℤ) * (b.height : ℤ) := by positivity
    have hm : Int.tmod (x + (b.width : ℤ) * (b.height : ℤ))
          ((b.width : ℤ) * (b.height : ℤ))
        = Int.tmod x ((b.width : ℤ) * (b.height : ℤ)) := by
      rw [Int.tmod_eq_emod (by omega) hW, Int.tmod_eq_emod hx hW]
      have h1 : x + (b.width : ℤ) * (b.height : ℤ)
          = x + ((b.width : ℤ) * (b.height : ℤ)) * 1 := by ring
      rw [h1, Int.add_mul_emod_self_left]
    simp only [hm]

theorem outside_window_dead_and_store_aliases_witness :
    advanceWithStorage 1 1 conwayRule (constantBoard CellState.Living) ⟨1, 0⟩
        = CellState.Dead ∧
    getStorePeek ⟨1, 1, [CellState.Living]⟩ ⟨(2 : ℤ), 0⟩
        = getStorePeek ⟨1, 1, [CellState.Living]⟩ ⟨(1 : ℤ), 0⟩ :=
  ⟨outside_window_dead_and_store_aliases.1 conwayRule (constantBoard CellState.Living)
      1 1 ⟨1, 0⟩ (by decide) (by decide) (by decide),
   outside_window_dead_and_store_aliases.2 CellState ⟨1, 1, [CellState.Living]⟩ 1 0
      (by decide)⟩

/-- C3: the driver classifies an immediate fixed point as a cycle of
length 1, not 0.  Concretely, on the empty board (a fixed point of the
Conway rule) the first completion is the cycle of length 1 found at
generation 2, reported with the generic cycle wording; and in general
`checkCycling` either leaves the simulation state alone or emits a cycle
of length `idx + 1 ≥ 1`, so the length-0 "settled" branch of
`reportCompletion` is unreachable. -/
theorem fixed_point_reported_as_cycle_length_one :
    ((firstCompletion 20 2 2 (recursiveAdvance conwayRule) emptyBoard 3).map
        reportCompletion
      = some "Board entered cycle of length 1 after 2 turns.") ∧
    (∀ (width height : ℕ) (recent : List ℕ) (sim : Simulation (Iterated Board)),
      (checkCycling width height recent sim).2 = sim ∨
      ∃ l, (checkCycling width height recent sim).2
          = Simulation.cycle (simValue sim) (l + 1)) := by
  constructor
  · decide
  · intro width height recent sim
    unfold checkCycling
    cases h : jsIndexOf recent (boardToBigNum width height (simValue sim).value) with
    | none => left; simp only [h]
    | some idx => right; exact ⟨idx, by simp only [h]⟩

/-- C8: with `maxTurns = 0` the driver does not report "completed
without simulating anything": the stream is not truncated, so generation
1 is still produced, `checkMaxTurns` marks it `limited` (1 ≥ 0), and the
report is the turn-limit wording for 1 turn. -/
theorem zero_max_turns_reports_limited :
    ((firstCompletion 0 2 2 (recursiveAdvance conwayRule) emptyBoard 1).map
        reportCompletion
      = some "Game ended after max (1) turns without settling.") ∧
    ((firstCompletion 0 2 2 (recursiveAdvance conwayRule) emptyBoard 1).map
        completionIteration
      = some 1) ∧
    reportNoGenerations = "Completed without simulating anything." := by
  refine ⟨by decide, by decide, rfl⟩

lemma bitsToNat_go (init : ℕ) (l : List Bool) :
    l.foldl (fun acc b => 2 * acc + (if b then 1 else 0)) init
      = init * 2 ^ l.length
        + l.foldl (fun acc b => 2 * acc + (if b then 1 else 0)) 0 := by
  induction l generalizing init with
  | nil => simp
  | cons b t ih =>
    rw [List.foldl_cons, List.foldl_cons, ih (2 * init + if b then 1 else 0),
      ih (2 * 0 + if b then 1 else 0), List.length_cons]
    ring

lemma bitsToNat_cons (b : Bool) (t : List Bool) :
    bitsToNat (b :: t) = (if b then 1 else 0) * 2 ^ t.length + bitsToNat t := by
  unfold bitsToNat
  rw [List.foldl_cons, bitsToNat_go (2 * 0 + if b then 1 else 0) t]
  ring

lemma bitsToNat_lt (l : List Bool) : bitsToNat l < 2 ^ l.length := by
  induction l with
  | nil => simp [bitsToNat]
  | cons b t ih =>
    rw [bitsToNat_cons, List.length_cons, pow_succ]
    rcases b <;> simp <;> omega

lemma bitsToNat_inj (l1 l2 : List Bool) (hlen : l1.length = l2.length)
    (h : bitsToNat l1 = bitsToNat l2) : l1 = l2 := by
  induction l1 generalizing l2 with
  | nil =>
    cases l2 with
    | nil => rfl
    | cons b t => simp at hlen
  | cons b1 t1 ih =>
    cases l2 with
    | nil => simp at hlen
    | cons b2 t2 =>
      have hn : t1.length = t2.length := by simpa using hlen
      rw [bitsToNat_cons, bitsToNat_cons, ← hn] at h
      have hb1 := bitsToNat_lt t1
      have hb2 := bitsToNat_lt t2
      rw [← hn] at hb2
      have hb : b1 = b2 := by
        rcases b1 <;> rcases b2 <;> simp at h ⊢ <;> omega
      subst hb
      have ht : bitsToNat t1 = bitsToNat t2 := by
        rcases b1 <;> simp at h <;> omega
      rw [ih t2 hn ht]

lemma flatMap_map_length {α : Type} (xs ys : List ℕ) (f : ℕ → ℕ → α) :
    (xs.flatMap (fun x => ys.map (f x))).length = xs.length * ys.length := by
  induction xs with
  | nil => simp
  | cons x t ih =>
    simp only [List.flatMap_cons, List.length_append, List.length_map, ih,
      List.length_cons]
    ring

lemma flatMap_map_eq_iff {α : Type} (xs ys : List ℕ) (f g : ℕ → ℕ → α) :
    xs.flatMap (fun x => ys.map (f x)) = xs.flatMap (fun x => ys.map (g x))
      ↔ ∀ x ∈ xs, ∀ y ∈ ys, f x y = g x y := by
  induction xs with
  | nil => simp
  | cons x t ih =>
    simp only [List.flatMap_cons]
    constructor
    · intro h
      have hsplit := List.append_inj h (by simp)
      intro x' hx' y hy
      rcases List.mem_cons.mp hx' with rfl | hx'
      · exact (List.map_eq_map_iff.mp hsplit.1) y hy
      · exact (ih.mp hsplit.2) x' hx' y hy
    · intro h
      have h1 : ys.map (f x) = ys.map (g x) :=
        List.map_eq_map_iff.mpr (fun y hy => h x (List.mem_cons_self x t) y hy)
      have h2 : t.flatMap (fun x => ys.map (f x)) = t.flatMap (fun x => ys.map (g x)) :=
        ih.mpr (fun x' hx' y hy => h x' (List.mem_cons_of_mem x hx') y hy)
      rw [h1, h2]

lemma cellState_eq_of_decide (s t : CellState)
    (h : decide (s = CellState.Living) = decide (t = CellState.Living)) : s = t := by
  cases s <;> cases t <;> simp_all

/-- C6: the canonical big-integer encoding of a board over a window of
width and height at least 1 is collision-free: two boards have the same
encoding exactly when they agree at every point of the window. -/
theorem boardToBigNum_inj_on_window (width height : ℕ)
    (hw : 1 ≤ width) (hh : 1 ≤ height) (a b : Board) :
    boardToBigNum width height a = boardToBigNum width height b ↔
      ∀ p : Point, 0 ≤ p.x → p.x < width → 0 ≤ p.y → p.y < height → a p = b p := by
  unfold boardToBigNum
  rw [effRange_of_pos width hw, effRange_of_pos height hh]
  constructor
  · intro h p hx0 hx1 hy0 hy1
    have hlen : ((List.range width).flatMap
          (fun (x : ℕ) => (List.range height).map
            (fun (y : ℕ) => decide (a ⟨x, y⟩ = CellState.Living)))).length
        = ((List.range width).flatMap
          (fun (x : ℕ) => (List.range height).map
            (fun (y : ℕ) => decide (b ⟨x, y⟩ = CellState.Living)))).length := by
      rw [flatMap_map_length, flatMap_map_length]
    have hb := bitsToNat_inj _ _ hlen h
    have hmem := (flatMap_map_eq_iff _ _ _ _).mp hb p.x.toNat
      (List.mem_range.mpr (by omega)) p.y.toNat (List.mem_range.mpr (by omega))
    have hpx : ((p.x.toNat : ℕ) : ℤ) = p.x := Int.toNat_of_nonneg hx0
    have hpy : ((p.y.toNat : ℕ) : ℤ) = p.y := Int.toNat_of_nonneg hy0
    rw [hpx, hpy] at hmem
    exact cellState_eq_of_decide _ _ hmem
  · intro h
    have hb : ((List.range width).flatMap
          (fun (x : ℕ) => (List.range height).map
            (fun (y : ℕ) => decide (a ⟨x, y⟩ = CellState.Living))))
        = ((List.range width).flatMap
          (fun (x : ℕ) => (List.range height).map
            (fun (y : ℕ) => decide (b ⟨x, y⟩ = CellState.Living)))) := by
      apply (flatMap_map_eq_iff _ _ _ _).mpr
      intro x hx y hy
      have hx' : x < width := List.mem_range.mp hx
      have hy' : y < height := List.mem_range.mp hy
      have := h ⟨(x : ℤ), (y : ℤ)⟩
        (show (0 : ℤ) ≤ (x : ℤ) by positivity)
        (show ((x : ℤ) < (width : ℤ)) by exact_mod_cast hx')
        (show (0 : ℤ) ≤ (y : ℤ) by positivity)
        (show ((y : ℤ) < (height : ℤ)) by exact_mod_cast hy')
      rw [this]
    rw [hb]

theorem boardToBigNum_inj_on_window_witness :
    boardToBigNum 1 1 emptyBoard = boardToBigNum 1 1 (constantBoard CellState.Dead) :=
  (boardToBigNum_inj_on_window 1 1 (by decide) (by decide) emptyBoard
    (constantBoard CellState.Dead)).mpr (fun _ _ _ _ _ => rfl)

lemma jsIndexOfAux_some {α : Type} [DecidableEq α] (l : List α) (a : α) (k i : ℕ)
    (h : jsIndexOfAux l a k = some i) :
    k ≤ i ∧ i - k < l.length ∧ l.get? (i - k) = some a := by
  induction l generalizing k with
  | nil => simp [jsIndexOfAux] at h
  | cons x xs ih =>
    unfold jsIndexOfAux at h
    by_cases hx : x = a
    · rw [if_pos hx] at h
      obtain rfl : k = i := by simpa using h
      simp [hx]
    · rw [if_neg hx] at h
      obtain ⟨h1, h2, h3⟩ := ih (k + 1) h
      refine ⟨by omega, by simp; omega, ?_⟩
      have hik : i - k = (i - (k + 1)) + 1 := by omega
      rw [hik]
      simpa using h3

lemma jsIndexOf_some {α : Type} [DecidableEq α] (l : List α) (a : α) (i : ℕ)
    (h : jsIndexOf l a = some i) : i < l.length ∧ l.get? i = some a := by
  obtain ⟨h1, h2, h3⟩ := jsIndexOfAux_some l a 0 i h
  rw [Nat.sub_zero] at h2 h3
  exact ⟨h2, h3⟩

/-- C7: the history of canonical encodings threaded by the driver is
bounded: `checkCycling` never returns more than 100 recent values, and
when it reports a cycle of length `l` the current board's encoding sits
at position `l - 1` of the (at most 100 long) history, so `1 ≤ l ≤ 100`
— a recurrence farther back than 100 generations is never reported. -/
theorem history_bounded_cycle_within_100 (width height : ℕ) (recent : List ℕ)
    (sim : Simulation (Iterated Board)) (hlen : recent.length ≤ 100)
    (hnc : ∀ v l, sim ≠ Simulation.cycle v l) :
    ((checkCycling width height recent sim).1.length ≤ 100) ∧
    (∀ v l, (checkCycling width height recent sim).2 = Simulation.cycle v l →
      1 ≤ l ∧ l ≤ 100 ∧
      recent.get? (l - 1) = some (boardToBigNum width height (simValue sim).value)) := by
  unfold checkCycling
  cases h : jsIndexOf recent (boardToBigNum width height (simValue sim).value) with
  | none =>
    constructor
    · simp only [h, List.length_take]
      omega
    · intro v l hcyc
      simp only [h] at hcyc
      exact absurd hcyc (hnc v l)
  | some idx =>
    obtain ⟨hbound, hget⟩ := jsIndexOf_some _ _ _ h
    constructor
    · simp only [h]
      exact hlen
    · intro v l hcyc
      simp only [h, Simulation.cycle.injEq] at hcyc
      obtain ⟨-, rfl⟩ := hcyc
      refine ⟨by omega, by omega, ?_⟩
      simpa using hget

theorem history_bounded_cycle_within_100_witness :
    (checkCycling 1 1 [0] (Simulation.incomplete ⟨1, emptyBoard⟩)).1.length ≤ 100 :=
  (history_bounded_cycle_within_100 1 1 [0] (Simulation.incomplete ⟨1, emptyBoard⟩)
    (by decide) (fun v l h => Simulation.noConfusion h)).1

lemma str_single_run (d c : Char) (t : List Char) :
    (str [d]).run (c :: t) = if d = c then some ([d], t) else none := by
  unfold str
  by_cases h : d = c
  · subst h
    simp [List.isPrefixOf]
  · simp [List.isPrefixOf, h]

lemma oneOfRun_digit_parsers (c : Char) (t : List Char) (ds : List Char) :
    oneOfRun ((ds.map (fun d => str [d])).map (fun p => parserMap p parseIntChars)) (c :: t)
      = if c ∈ ds then some (parseIntChars [c], t) else none := by
  induction ds with
  | nil => simp [oneOfRun]
  | cons d rest ih =>
    by_cases h : d = c
    · subst h
      have hrun : (parserMap (str [d]) parseIntChars).run (d :: t)
          = some (parseIntChars [d], t) := by
        simp [parserMap, str_single_run]
      simp [oneOfRun, hrun]
    · have hrun : (parserMap (str [d]) parseIntChars).run (c :: t) = none := by
        simp only [parserMap, str_single_run]
        rw [if_neg h]
      simp only [List.map_cons, oneOfRun, hrun, ih, List.mem_cons]
      have hcd : (c = d) = False := by simp [Ne.symm h]
      simp [hcd]

lemma anyDigit_run_nil : anyDigit.run [] = none := by
  have h : ∀ ps : List (Parser ℕ),
      (∀ p ∈ ps, p.run [] = none) → oneOfRun ps [] = none := by
    intro ps hps
    induction ps with
    | nil => rfl
    | cons p rest ih =>
      unfold oneOfRun
      rw [hps p (List.mem_cons_self p rest)]
      exact ih (fun q hq => hps q (List.mem_cons_of_mem p hq))
  apply h
  intro p hp
  simp only [digits, List.mem_map] at hp
  obtain ⟨q, ⟨d, _, rfl⟩, rfl⟩ := hp
  rfl

lemma anyDigit_run_cons (c : Char) (t : List Char) :
    anyDigit.run (c :: t)
      = if c ∈ digitChars then some (parseIntChars [c], t) else none :=
  oneOfRun_digit_parsers c t digitChars

lemma isRuleDigit_iff_mem (c : Char) : isRuleDigit c = true ↔ c ∈ digitChars := by
  unfold isRuleDigit
  exact decide_eq_true_iff

lemma zeroOrMoreRun_anyDigit (fuel : ℕ) (s : List Char) (hfuel : s.length < fuel) :
    zeroOrMoreRun anyDigit fuel s
      = some ((s.takeWhile isRuleDigit).map (fun c => parseIntChars [c]),
              s.dropWhile isRuleDigit) := by
  induction fuel generalizing s with
  | zero => omega
  | succ n ih =>
    cases s with
    | nil =>
      simp only [zeroOrMoreRun, anyDigit_run_nil]
      simp
    | cons c t =>
      by_cases h : c ∈ digitChars
      · have hd : isRuleDigit c = true := by simp [isRuleDigit, h]
        simp only [zeroOrMoreRun, anyDigit_run_cons, if_pos h,
          ih t (by simp at hfuel; omega), List.takeWhile_cons, List.dropWhile_cons, hd]
        simp
      · have hd : isRuleDigit c = false := by simp [isRuleDigit, h]
        simp only [zeroOrMoreRun, anyDigit_run_cons, if_neg h,
          List.takeWhile_cons, List.dropWhile_cons, hd]
        simp

lemma someDigits_run (s : List Char) :
    someDigits.run s
      = some ((s.takeWhile isRuleDigit).map (fun c => parseIntChars [c]),
              s.dropWhile isRuleDigit) :=
  zeroOrMoreRun_anyDigit (s.length + 1) s (Nat.lt_succ_self _)

lemma strSlashS_run_cons2 (d1 d2 : Char) (t : List Char) :
    (str ['/', 'S']).run (d1 :: d2 :: t)
      = if d1 = '/' ∧ d2 = 'S' then some (['/', 'S'], t) else none := by
  by_cases h1 : ('/' : Char) = d1
  · subst h1
    by_cases h2 : ('S' : Char) = d2
    · subst h2
      simp [str, List.isPrefixOf]
    · have hno : ¬ (('/' : Char) = '/' ∧ d2 = 'S') := fun hh => h2 hh.2.symm
      rw [if_neg hno]
      simp [str, List.isPrefixOf, h2]
  · have hno : ¬ (d1 = '/' ∧ d2 = 'S') := fun hh => h1 hh.1.symm
    rw [if_neg hno]
    simp [str, List.isPrefixOf, h1]

lemma parse_ok_iff {α : Type} (p : Parser α) (s : List Char) (r : α) :
    parse p s = Except.ok r ↔ p.run s = some (r, []) := by
  unfold parse
  cases h : p.run s with
  | none => simp
  | some pr =>
    obtain ⟨r0, rem⟩ := pr
    by_cases hrem : rem = []
    · subst hrem
      simp
    · simp [hrem]

lemma takeWhile_append_stop (P : Char → Bool) (l1 : List Char) (c0 : Char)
    (l2 : List Char) (hall : ∀ c ∈ l1, P c) (hc : P c0 = false) :
    (l1 ++ c0 :: l2).takeWhile P = l1 ∧ (l1 ++ c0 :: l2).dropWhile P = c0 :: l2 := by
  induction l1 with
  | nil => simp [List.takeWhile_cons, List.dropWhile_cons, hc]
  | cons a t ih =>
    have ha : P a = true := hall a (List.mem_cons_self a t)
    have ih' := ih (fun c hc' => hall c (List.mem_cons_of_mem a hc'))
    simp [List.takeWhile_cons, List.dropWhile_cons, ha, ih'.1, ih'.2]

lemma takeWhile_all_of (P : Char → Bool) (l : List Char) (hall : ∀ c ∈ l, P c) :
    l.takeWhile P = l ∧ l.dropWhile P = [] := by
  induction l with
  | nil => simp
  | cons a t ih =>
    have ha : P a = true := hall a (List.mem_cons_self a t)
    have ih' := ih (fun c hc' => hall c (List.mem_cons_of_mem a hc'))
    simp [List.takeWhile_cons, List.dropWhile_cons, ha, ih'.1, ih'.2]

lemma ruleParser_run_ok (s : List Char) (r : StateChangeRule) (rem : List Char)
    (h : ruleParser.run s = some (r, rem)) :
    ∃ t t2 : List Char,
      s = 'B' :: t ∧
      t.dropWhile isRuleDigit = '/' :: 'S' :: t2 ∧
      rem = t2.dropWhile isRuleDigit ∧
      r = partsToRule ((t.takeWhile isRuleDigit).map (fun c => parseIntChars [c]))
            ((t2.takeWhile isRuleDigit).map (fun c => parseIntChars [c])) := by
  cases s with
  | nil =>
    have hnil : ruleParser.run [] = none := rfl
    rw [hnil] at h
    simp at h
  | cons c t =>
    by_cases hc : 'B' = c
    · subst hc
      have h1 : (str ['B']).run ('B' :: t) = some (['B'], t) := by
        rw [str_single_run, if_pos rfl]
      have h2 : pb.run ('B' :: t)
          = some ((t.takeWhile isRuleDigit).map (fun c => parseIntChars [c]),
                  t.dropWhile isRuleDigit) := by
        simp only [pb, sequenceRight, h1, someDigits_run]
      have h4 : ruleParser.run ('B' :: t)
          = match ps.run (t.dropWhile isRuleDigit) with
            | some (a2, rem2) =>
              some (partsToRule
                  ((t.takeWhile isRuleDigit).map (fun c => parseIntChars [c])) a2,
                rem2)
            | none => none := by
        simp only [ruleParser, parserAp, prule, parserOf, h2]
        cases hps0 : ps.run (List.dropWhile isRuleDigit t) with
        | none => rfl
        | some v =>
          obtain ⟨a, b⟩ := v
          rfl
      rw [h4] at h
      rcases hr1 : t.dropWhile isRuleDigit with _ | ⟨d1, r1b⟩
      · rw [hr1] at h
        have hps : ps.run [] = none := rfl
        rw [hps] at h
        simp at h
      · rcases r1b with _ | ⟨d2, t2⟩
        · rw [hr1] at h
          have hstr : (str ['/', 'S']).run [d1] = none := by
            simp [str, List.isPrefixOf]
          have hps : ps.run [d1] = none := by
            simp only [ps, sequenceRight, hstr]
          rw [hps] at h
          simp at h
        · rw [hr1] at h
          by_cases hd : d1 = '/' ∧ d2 = 'S'
          · obtain ⟨rfl, rfl⟩ := hd
            have hstr : (str ['/', 'S']).run ('/' :: 'S' :: t2) = some (['/', 'S'], t2) := by
              rw [strSlashS_run_cons2,
                if_pos (⟨rfl, rfl⟩ : ('/' : Char) = '/' ∧ ('S' : Char) = 'S')]
            have hps : ps.run ('/' :: 'S' :: t2)
                = some ((t2.takeWhile isRuleDigit).map (fun c => parseIntChars [c]),
                        t2.dropWhile isRuleDigit) := by
              simp only [ps, sequenceRight, hstr, someDigits_run]
            rw [hps] at h
            simp only [Option.some.injEq, Prod.mk.injEq] at h
            exact ⟨t, t2, rfl, hr1, h.2.symm, h.1.symm⟩
          · have hstr : (str ['/', 'S']).run (d1 :: d2 :: t2) = none := by
              rw [strSlashS_run_cons2, if_neg hd]
            have hps : ps.run (d1 :: d2 :: t2) = none := by
              simp only [ps, sequenceRight, hstr]
            rw [hps] at h
            simp at h
    · have h1 : (str ['B']).run (c :: t) = none := by
        rw [str_single_run, if_neg hc]
      have h4 : ruleParser.run (c :: t) = none := by
        simp only [ruleParser, parserAp, prule, parserOf, pb, sequenceRight, h1]
      rw [h4] at h
      simp at h

lemma ruleParser_run_grammar (ds1 ds2 : List Char)
    (h1 : ∀ c ∈ ds1, isRuleDigit c) (h2 : ∀ c ∈ ds2, isRuleDigit c) :
    ruleParser.run ('B' :: (ds1 ++ '/' :: 'S' :: ds2))
      = some (partsToRule (ds1.map (fun c => parseIntChars [c]))
          (ds2.map (fun c => parseIntChars [c])), []) := by
  have hslash : isRuleDigit '/' = false := by decide
  obtain ⟨htw, hdw⟩ := takeWhile_append_stop isRuleDigit ds1 '/' ('S' :: ds2) h1 hslash
  obtain ⟨htw2, hdw2⟩ := takeWhile_all_of isRuleDigit ds2 h2
  have hB : (str ['B']).run ('B' :: (ds1 ++ '/' :: 'S' :: ds2))
      = some (['B'], ds1 ++ '/' :: 'S' :: ds2) := by
    rw [str_single_run, if_pos rfl]
  have hpb : pb.run ('B' :: (ds1 ++ '/' :: 'S' :: ds2))
      = some (ds1.map (fun c => parseIntChars [c]), '/' :: 'S' :: ds2) := by
    simp only [pb, sequenceRight, hB, someDigits_run, htw, hdw]
  have hstr : (str ['/', 'S']).run ('/' :: 'S' :: ds2) = some (['/', 'S'], ds2) := by
    rw [strSlashS_run_cons2,
      if_pos (⟨rfl, rfl⟩ : ('/' : Char) = '/' ∧ ('S' : Char) = 'S')]
  have hps : ps.run ('/' :: 'S' :: ds2)
      = some (ds2.map (fun c => parseIntChars [c]), []) := by
    simp only [ps, sequenceRight, hstr, someDigits_run, htw2, hdw2]
  simp only [ruleParser, parserAp, prule, parserOf, hpb, hps]

lemma partsToRule_semantics (B S : List ℕ) (state : CellState) (n : ℕ) :
    (partsToRule B S state n = some CellDifference.Birth
      ↔ state = CellState.Dead ∧ n ∈ B) ∧
    (partsToRule B S state n = some CellDifference.Death
      ↔ state = CellState.Living ∧ n ∉ S) ∧
    (partsToRule B S state n = none
      ↔ ¬(state = CellState.Dead ∧ n ∈ B) ∧ ¬(state = CellState.Living ∧ n ∉ S)) := by
  cases state <;> by_cases hS : n ∈ S <;> by_cases hB : n ∈ B <;>
    simp [partsToRule, hS, hB]

/-- C2: every rule string the parser accepts yields the rule built from
its parsed birth set B and survive set S: it signals `Birth` exactly on
a dead cell with living-neighbor count in B, `Death` exactly on a living
cell with count outside S, and nothing otherwise; in particular
`"B3/S23"` parses, and the result maps (Dead, 3) to Birth, (Living, 2)
to no change, and (Living, 4) to Death. -/
theorem parsed_rule_semantics :
    (∀ (s : List Char) (r : StateChangeRule), parse ruleParser s = Except.ok r →
      ∃ B S : List ℕ, ∀ (state : CellState) (n : ℕ),
        (r state n = some CellDifference.Birth
          ↔ state = CellState.Dead ∧ n ∈ B) ∧
        (r state n = some CellDifference.Death
          ↔ state = CellState.Living ∧ n ∉ S) ∧
        (r state n = none
          ↔ ¬(state = CellState.Dead ∧ n ∈ B) ∧ ¬(state = CellState.Living ∧ n ∉ S))) ∧
    (∃ r : StateChangeRule,
      parse ruleParser ['B', '3', '/', 'S', '2', '3'] = Except.ok r ∧
      r CellState.Dead 3 = some CellDifference.Birth ∧
      r CellState.Living 2 = none ∧
      r CellState.Living 4 = some CellDifference.Death) := by
  constructor
  · intro s r hok
    have hrun := (parse_ok_iff ruleParser s r).mp hok
    obtain ⟨t, t2, -, -, -, hrule⟩ := ruleParser_run_ok s r [] hrun
    refine ⟨(t.takeWhile isRuleDigit).map (fun c => parseIntChars [c]),
      (t2.takeWhile isRuleDigit).map (fun c => parseIntChars [c]), ?_⟩
    intro state n
    rw [hrule]
    exact partsToRule_semantics _ _ state n
  · exact ⟨partsToRule [3] [2, 3], rfl, by decide, by decide, by decide⟩

theorem parsed_rule_semantics_witness :
    ∃ B S : List ℕ, ∀ (state : CellState) (n : ℕ),
      (partsToRule [3] [2, 3] state n = some CellDifference.Birth
        ↔ state = CellState.Dead ∧ n ∈ B) ∧
      (partsToRule [3] [2, 3] state n = some CellDifference.Death
        ↔ state = CellState.Living ∧ n ∉ S) ∧
      (partsToRule [3] [2, 3] state n = none
        ↔ ¬(state = CellState.Dead ∧ n ∈ B) ∧ ¬(state = CellState.Living ∧ n ∉ S)) :=
  parsed_rule_semantics.1 ['B', '3', '/', 'S', '2', '3'] (partsToRule [3] [2, 3]) rfl

/-- C4, counterexample: `"3B/S"` is generated by the spec's stated
grammar `Digit* "B" Digit* "/S"`, yet the parser rejects it (and
conversely the parser accepts `"B3/S23"`, which that grammar does not
generate), so the parser does not accept exactly the spec's grammar. -/
theorem spec_grammar_counterexample :
    specGrammar ['3', 'B', '/', 'S'] ∧
    parse ruleParser ['3', 'B', '/', 'S'] = Except.error "input not matched" := by
  constructor
  · exact ⟨['3'], [], by decide, by decide, rfl⟩
  · rfl

/-- C4, amended: the parser succeeds exactly on the language
`Rule ::= "B" Digit* "/S" Digit*` with `Digit ::= "0" .. "8"` (digits
follow `"B"` and `"/S"` rather than preceding them), and on every other
input — unrecognized characters, trailing unconsumed input, or a digit
out of 0–8 — `parse` returns a structured error value rather than
throwing. -/
theorem rule_parser_accepts_exactly_code_grammar :
    (∀ s : List Char, (∃ r, parse ruleParser s = Except.ok r) ↔ codeGrammar s) ∧
    (∀ s : List Char, (∃ r, parse ruleParser s = Except.ok r) ∨
      ∃ e : String, parse ruleParser s = Except.error e) := by
  constructor
  · intro s
    constructor
    · rintro ⟨r, hr⟩
      have hrun := (parse_ok_iff ruleParser s r).mp hr
      obtain ⟨t, t2, rfl, hdrop, hrem, -⟩ := ruleParser_run_ok _ r [] hrun
      refine ⟨t.takeWhile isRuleDigit, t2, ?_, ?_, ?_⟩
      · intro c hc
        exact List.mem_takeWhile_imp hc
      · intro c hc
        exact (List.dropWhile_eq_nil_iff.mp hrem.symm) c hc
      · have hsplit := List.takeWhile_append_dropWhile isRuleDigit t
        rw [hdrop] at hsplit
        rw [hsplit]
    · rintro ⟨ds1, ds2, h1, h2, rfl⟩
      exact ⟨_, (parse_ok_iff _ _ _).mpr (ruleParser_run_grammar ds1 ds2 h1 h2)⟩
  · intro s
    cases h : parse ruleParser s with
    | ok r => exact Or.inl ⟨r, rfl⟩
    | error e => exact Or.inr ⟨e, rfl⟩

lemma mem_allDirections (d : Direction) : d ∈ allDirections := by
  cases d <;> simp [allDirections]

lemma move_oppositeDir (d : Direction) (p : Point) :
    move (oppositeDir d) (move d p) = p := by
  cases d <;> cases p <;>
    simp [move, addPoint, oppositeDir, directionOffset, Point.mk.injEq]

lemma listBoard_living (pts : List Point) (p : Point) :
    listBoard pts p = CellState.Living ↔ p ∈ pts := by
  unfold listBoard
  split <;> simp_all

lemma advance_mem_candidates (pts : List Point) (p : Point)
    (h : recursiveAdvance conwayRule (listBoard pts) p = CellState.Living) :
    p ∈ stepCandidates pts := by
  unfold stepCandidates
  rw [List.mem_dedup, List.mem_flatMap]
  cases hp : listBoard pts p with
  | Living =>
    exact ⟨p, (listBoard_living pts p).mp hp, List.mem_cons_self _ _⟩
  | Dead =>
    simp only [recursiveAdvance] at h
    rw [hp] at h
    have hfil : ((allDirections.map (fun d => move d p)).filter
        (fun q => decide (listBoard pts q = CellState.Living))) ≠ [] := by
      intro hempty
      rw [hempty] at h
      exact absurd h (by decide)
    obtain ⟨q, hq⟩ := List.exists_mem_of_ne_nil _ hfil
    obtain ⟨hqmem, hqlive⟩ := List.mem_filter.mp hq
    obtain ⟨d, -, rfl⟩ := List.mem_map.mp hqmem
    refine ⟨move d p, (listBoard_living pts _).mp (of_decide_eq_true hqlive), ?_⟩
    apply List.mem_cons_of_mem
    exact List.mem_map.mpr ⟨oppositeDir d, mem_allDirections _, move_oppositeDir d p⟩

lemma mem_stepList_iff (pts : List Point) (p : Point) :
    p ∈ stepList pts
      ↔ recursiveAdvance conwayRule (listBoard pts) p = CellState.Living := by
  unfold stepList
  rw [List.mem_filter]
  constructor
  · rintro ⟨-, hb⟩
    exact of_decide_eq_true hb
  · intro h
    exact ⟨advance_mem_candidates pts p h, decide_eq_true h⟩

lemma advance_listBoard (pts : List Point) :
    recursiveAdvance conwayRule (listBoard pts) = listBoard (stepList pts) := by
  funext q
  by_cases hq : q ∈ stepList pts
  · rw [(mem_stepList_iff pts q).mp hq]
    exact ((listBoard_living _ _).mpr hq).symm
  · have hL : recursiveAdvance conwayRule (listBoard pts) q ≠ CellState.Living :=
      fun hl => hq ((mem_stepList_iff pts q).mpr hl)
    have hdead : recursiveAdvance conwayRule (listBoard pts) q = CellState.Dead := by
      cases hv : recursiveAdvance conwayRule (listBoard pts) q
      · exact absurd hv hL
      · rfl
    rw [hdead]
    unfold listBoard
    rw [if_neg hq]

/-- C9: starting from the 5-point glider, four applications of the
recursive strategy under the Conway B3/S23 rule yield exactly the glider
shape translated by (1, 1): a point is Living in generation 4 iff the
point minus (1, 1) is in the original glider point list. -/
theorem glider_translates_after_four_generations (p : Point) :
    recursiveAdvance conwayRule (recursiveAdvance conwayRule (recursiveAdvance conwayRule
        (recursiveAdvance conwayRule (boardFromPoints gliderPoints)))) p
      = CellState.Living
    ↔ (⟨p.x - 1, p.y - 1⟩ : Point) ∈ gliderPoints := by
  rw [boardFromPoints_eq_listBoard, advance_listBoard, advance_listBoard,
    advance_listBoard, advance_listBoard, listBoard_living]
  constructor
  · intro hmem
    exact (by decide :
      ∀ q ∈ stepList (stepList (stepList (stepList gliderPoints))),
        (⟨q.x - 1, q.y - 1⟩ : Point) ∈ gliderPoints) p hmem
  · intro hmem
    have hxy : p = ⟨(p.x - 1) + 1, (p.y - 1) + 1⟩ := by
      cases p with
      | mk a b =>
        simp only [Point.mk.injEq]
        omega
    rw [hxy]
    exact (by decide :
      ∀ q ∈ gliderPoints,
        (⟨q.x + 1, q.y + 1⟩ : Point)
          ∈ stepList (stepList (stepList (stepList gliderPoints))))
      ⟨p.x - 1, p.y - 1⟩ hmem

end LifeKata
